import Mathlib

/-!
# Shallow embedding of the SPFA iterator

This file embeds, in Lean, the Shortest Path Faster Algorithm iterator of
`crates/algorithms/src/shortest_paths/shortest_path_faster/iter.rs` and proves
or refutes the specification's claims about it.

Modelling choices:
* Node identifiers are `Nat` (the Rust code treats them as opaque,
  hashable, equality-comparable values).
* The cost type `E::Value` is `Int`: it has `Zero`, `Add` on references and a
  total order `Ord`, exactly the bounds required by the Rust code, and it
  admits negative weights, which the code does not exclude.
* The graph handle only provides node resolution and a node count
  (`graph.node(id)`, `graph.num_nodes()`); it is modelled by the list of node
  identifiers.  The connections provider and the cost extractor are passed as
  functions, as in the Rust code, where they are caller-supplied capabilities.
* `HashMap` lookups are total functions `Nat → Option _`.  The Rust code
  indexes the distance map with `self.distances[..]`, which panics when the
  key is absent; a panic is modelled by `Option.none` as the result of the
  whole step (`ShortestPathFasterIter.next` returns `none` for a call that
  never returns control, and `some (none, st)` for a normal `None` from the
  iterator).
* The predecessor walk of the path reconstruction does not terminate on a
  cyclic ledger; such a call never returns control either, and is likewise
  modelled by `Option.none` as the result of the whole step, so a state
  after a completed advance exists in the model exactly when the advance
  completes in the program.
-/

namespace Spfa

/-- An edge reference: an identifier (so parallel edges are distinguishable)
together with its two endpoints, matching `edge.endpoints()` returning the
pair `(u, v)` in the Rust code.  The weight is supplied separately by a cost
extractor function, as with the `GraphCost` capability. -/
structure Edge where
  eid : Nat
  u : Nat
  v : Nat
deriving DecidableEq, Repr

/-- The graph handle, reduced to what the iterator consumes: node resolution
(`graph.node`) and the node count (`graph.num_nodes`). -/
structure SPFAGraph where
  nodes : List Nat
deriving DecidableEq, Repr

/-- `graph.num_nodes()` of the Rust graph handle. -/
def SPFAGraph.num_nodes (g : SPFAGraph) : Nat :=
  g.nodes.length

/-- The `Intermediates` flag of `shortest_paths/common/intermediates.rs`
(`Record` / `Discard`), as used by `iter.rs`. -/
inductive Intermediates where
  | Record
  | Discard
deriving DecidableEq, Repr

/-- `SPFACandidateOrder` from `iter.rs` lines 20-25. -/
inductive SPFACandidateOrder where
  | SmallFirst
  | LargeLast
deriving DecidableEq, Repr

/-- Modelled from the spec: the Ordered Work Queue of section 4.2 is a
double-ended sequence supporting push-to-back, push-to-front and
pop-from-front (`shortest_paths/common/double_ended_queue.rs` is not among
the provided sources).  It is a list of node identifiers with the front at
the head. -/
def DoubleEndedQueue.push_back (q : List Nat) (item : Nat) : List Nat :=
  q ++ [item]

/-- Modelled from the spec: push-to-front of the Ordered Work Queue of
section 4.2. -/
def DoubleEndedQueue.push_front (q : List Nat) (item : Nat) : List Nat :=
  item :: q

/-- Modelled from the spec: pop-from-front of the Ordered Work Queue of
section 4.2. -/
def DoubleEndedQueue.pop_front : List Nat → Option (Nat × List Nat)
  | [] => none
  | x :: xs => some (x, xs)

/-- The `Path` result value: source, target and the ordered intermediate
nodes strictly between them. -/
structure SPFAPath where
  source : Nat
  target : Nat
  intermediates : List Nat
deriving DecidableEq, Repr

/-- The `Route` result value: a path together with its cost (the `Cost`
newtype of the Rust code is inlined). -/
structure Route where
  path : SPFAPath
  cost : Int
deriving DecidableEq, Repr

/-- The construction-time error of the iterator
(`ShortestPathFasterError::NodeNotFound`). -/
inductive ShortestPathFasterError where
  | NodeNotFound
deriving DecidableEq, Repr

/-- The state of `ShortestPathFasterIter` (`iter.rs` lines 27-50).  The Rust
field `next` is called `next_node` here because the `Iterator::next` method
is also modelled as a function named `next` on this structure. -/
structure ShortestPathFasterIter where
  queue : List Nat
  source : Nat
  num_nodes : Nat
  init : Bool
  next_node : Option Nat
  intermediates : Intermediates
  candidate_order : SPFACandidateOrder
  distances : Nat → Option Int
  predecessors : Nat → Option (Option Nat)

/-- `ShortestPathFasterIter::new` (`iter.rs` lines 61-100): resolve the
source, seed the queue with it, seed its distance to zero and, when
recording intermediates, its predecessor entry to none. -/
def ShortestPathFasterIter.new (graph : SPFAGraph) (source : Nat)
    (intermediates : Intermediates) (candidate_order : SPFACandidateOrder) :
    Except ShortestPathFasterError ShortestPathFasterIter :=
  if source ∈ graph.nodes then
    Except.ok
      { queue := DoubleEndedQueue.push_back [] source
        source := source
        num_nodes := graph.num_nodes
        init := true
        next_node := none
        intermediates := intermediates
        candidate_order := candidate_order
        distances := fun n => if n = source then some 0 else none
        predecessors := fun n =>
          if intermediates = Intermediates.Record ∧ n = source then some none
          else none }
  else
    Except.error ShortestPathFasterError.NodeNotFound

/-- The far endpoint of an edge as seen from `node` (`iter.rs` lines
142-143): the endpoint `u` when `v` is the current node, `v` otherwise. -/
def relaxTarget (node : Nat) (edge : Edge) : Nat :=
  if edge.v = node then edge.u else edge.v

/-- One relaxation of a single edge (`iter.rs` lines 141-157, loop body).
Determine the far endpoint exactly as the code does, index the distance map
at the current node and at the target (a missing key panics: result
`none`), and on a strict improvement update the distance, record the
predecessor when intermediates are recorded, and push the target to the
back of the queue. -/
def relaxEdge (cost : Edge → Int) (node : Nat)
    (st : ShortestPathFasterIter) (edge : Edge) :
    Option ShortestPathFasterIter :=
  let target := relaxTarget node edge
  match st.distances node, st.distances target with
  | some dn, some dt =>
    let next_distance_cost := dn + cost edge
    if next_distance_cost < dt then
      some
        { st with
          distances := fun n =>
            if n = target then some next_distance_cost else st.distances n
          predecessors := fun n =>
            if st.intermediates = Intermediates.Record ∧ n = target then
              some (some node)
            else st.predecessors n
          queue := DoubleEndedQueue.push_back st.queue target }
    else
      some st
  | _, _ => none

/-- The `for edge in connections` loop of `iter.rs` lines 141-157. -/
def relaxAll (cost : Edge → Int) (node : Nat) :
    ShortestPathFasterIter → List Edge → Option ShortestPathFasterIter
  | st, [] => some st
  | st, e :: es =>
    match relaxEdge cost node st e with
    | none => none
    | some st' => relaxAll cost node st' es

/-- Modelled from the spec: the predecessor walk of the reconstruction
operation of section 4.3 (`shortest_paths/common/intermediates.rs` is not
among the provided sources).  Starting from the target it follows
predecessor links, collecting each predecessor in traversal order, until it
reaches the entry with no predecessor (the source); the collected list thus
ends with the source.  The walk is partial: it does not terminate when the
ledger is cyclic, and it fails when it meets a node with no ledger entry
(a logic error per the spec).  Both behaviours are `none` here; `some` is
returned only when the walk genuinely completes.  The fuel bounds the
recursion: a completing walk visits pairwise distinct nodes, each holding a
ledger entry, and ledger keys are graph nodes, so in every state the
program produces a budget of one more than the node count is enough and
`none` exactly marks a walk the real code never finishes. -/
def reconstructWalk (predecessors : Nat → Option (Option Nat)) :
    Nat → Nat → Option (List Nat)
  | 0, _ => none
  | fuel + 1, current =>
    match predecessors current with
    | none => none
    | some none => some []
    | some (some p) =>
      match reconstructWalk predecessors fuel p with
      | none => none
      | some rest => some (p :: rest)

/-- Modelled from the spec: the reconstruction operation of section 4.3.
It drops the source from the walked chain (intermediates lie strictly
between source and target) and returns the intermediates reversed
(source-adjacent first); `none` when the walk does not complete. -/
def reconstruct_intermediates (predecessors : Nat → Option (Option Nat))
    (target : Nat) (fuel : Nat) : Option (List Nat) :=
  (reconstructWalk predecessors fuel target).map
    (fun l => l.dropLast.reverse)

/-- `Iterator::next` for `ShortestPathFasterIter` (`iter.rs` lines 121-186).
The outer `Option` models a call that never returns control to the caller:
`none` is an abort on a missing map key (the Rust index panics) or a
reconstruction walk that never terminates (a cyclic predecessor ledger).
`some (none, st)` is the iterator returning `None`, and
`some (some r, st)` yields the route `r` with successor state `st`. -/
def ShortestPathFasterIter.next (cost : Edge → Int)
    (conns : Nat → List Edge) (st : ShortestPathFasterIter) :
    Option (Option Route × ShortestPathFasterIter) :=
  if st.init then
    some
      (some
        { path :=
            { source := st.source, target := st.source, intermediates := [] }
          cost := 0 },
        { st with init := false, next_node := some st.source })
  else
    match st.next_node with
    | none => some (none, st)
    | some node =>
      match relaxAll cost node st (conns node) with
      | none => none
      | some st1 =>
        match DoubleEndedQueue.pop_front st1.queue with
        | none => some (none, { st1 with next_node := none })
        | some (n, rest) =>
          let st2 := { st1 with queue := rest, next_node := some n }
          match st2.distances n with
          | none => none
          | some distance =>
            match
              (if st2.intermediates = Intermediates.Discard then some []
               else reconstruct_intermediates st2.predecessors n
                 (st2.num_nodes + 1)) with
            | none => none
            | some inters =>
              some
                (some
                  { path :=
                      { source := st2.source, target := n,
                        intermediates := inters }
                    cost := distance },
                  st2)

/-- `Iterator::size_hint` (`iter.rs` lines 188-190). -/
def ShortestPathFasterIter.size_hint (st : ShortestPathFasterIter) :
    Nat × Option Nat :=
  (0, some st.num_nodes)

/-- Outcome of driving the iterator to completion: the routes yielded in
order, tagged by whether the iterator returned `None` (`finished`), some
call to next never returned (`panicked`: a map index panic or a
non-terminating reconstruction walk), or the driver's fuel ran out
(`out_of_fuel`). -/
inductive RunResult where
  | finished (routes : List Route)
  | panicked (routes : List Route)
  | out_of_fuel (routes : List Route)
deriving DecidableEq, Repr

/-- The routes collected by a run, whatever its outcome. -/
def RunResult.routes : RunResult → List Route
  | RunResult.finished rs => rs
  | RunResult.panicked rs => rs
  | RunResult.out_of_fuel rs => rs

/-- Prepend a yielded route to a run outcome. -/
def RunResult.cons (r : Route) : RunResult → RunResult
  | RunResult.finished rs => RunResult.finished (r :: rs)
  | RunResult.panicked rs => RunResult.panicked (r :: rs)
  | RunResult.out_of_fuel rs => RunResult.out_of_fuel (r :: rs)

/-- Drive the iterator: repeatedly call `next`, collecting yielded routes,
until it returns `None`, panics, or the fuel runs out. -/
def ShortestPathFasterIter.run (cost : Edge → Int) (conns : Nat → List Edge) :
    ShortestPathFasterIter → Nat → RunResult
  | _, 0 => RunResult.out_of_fuel []
  | st, fuel + 1 =>
    match st.next cost conns with
    | none => RunResult.panicked []
    | some (none, _) => RunResult.finished []
    | some (some r, st') => RunResult.cons r (st'.run cost conns fuel)

/-- The state after `n` calls to `next` (`none` when some call panicked). -/
def ShortestPathFasterIter.iterate (cost : Edge → Int)
    (conns : Nat → List Edge) :
    ShortestPathFasterIter → Nat → Option ShortestPathFasterIter
  | st, 0 => some st
  | st, n + 1 =>
    match st.next cost conns with
    | none => none
    | some (_, st') => st'.iterate cost conns n

/-- The multiset of (target, cost) pairs of a list of routes. -/
def routePairs (rs : List Route) : Multiset (Nat × Int) :=
  (rs.map fun r => (r.path.target, r.cost) : List (Nat × Int))

/-! ## Concrete inputs used to evaluate the iterator -/

/-- A graph with the single node 0. -/
def oneNodeGraph : SPFAGraph := ⟨[0]⟩

/-- A graph with nodes 0 and 1. -/
def twoNodeGraph : SPFAGraph := ⟨[0, 1]⟩

/-- The edge from node 0 to node 1. -/
def edgeZeroOne : Edge := ⟨0, 0, 1⟩

/-- A self-loop edge at node 0. -/
def loopEdge : Edge := ⟨1, 0, 0⟩

/-- A connections provider with no edges at all. -/
def noConnections : Nat → List Edge := fun _ => []

/-- The connections provider of the directed graph with the one edge
0 → 1. -/
def twoNodeConnections : Nat → List Edge := fun n =>
  if n = 0 then [edgeZeroOne] else []

/-- The connections provider of the graph whose only edge is the self-loop
at node 0. -/
def loopConnections : Nat → List Edge := fun n =>
  if n = 0 then [loopEdge] else []

/-- A cost extractor assigning every edge the weight 1. -/
def unitCost : Edge → Int := fun _ => 1

/-- A cost extractor assigning every edge the weight 3. -/
def threeCost : Edge → Int := fun _ => 3

/-- A cost extractor assigning every edge the weight -1. -/
def negCost : Edge → Int := fun _ => -1

/-- The trivial route from node 0 to itself with cost zero. -/
def sourceRoute : Route :=
  { path := { source := 0, target := 0, intermediates := [] }, cost := 0 }

/-- The iterator state produced by a successful construction over
`oneNodeGraph` with source 0, discarding intermediates. -/
def initialOneNode : ShortestPathFasterIter :=
  { queue := [0]
    source := 0
    num_nodes := 1
    init := true
    next_node := none
    intermediates := Intermediates.Discard
    candidate_order := SPFACandidateOrder.SmallFirst
    distances := fun n => if n = 0 then some 0 else none
    predecessors := fun n =>
      if Intermediates.Discard = Intermediates.Record ∧ n = 0 then some none
      else none }

/-- A mid-iteration state used to observe the queue-insertion behaviour of a
relaxation: the policy is SmallFirst, the queue front is node 5 whose
recorded distance is 10, the current node is 0 with distance 0, and node 1
has recorded distance 7. -/
def mixedState : ShortestPathFasterIter :=
  { queue := [5]
    source := 0
    num_nodes := 6
    init := false
    next_node := some 0
    intermediates := Intermediates.Discard
    candidate_order := SPFACandidateOrder.SmallFirst
    distances := fun n =>
      if n = 0 then some 0
      else if n = 1 then some 7
      else if n = 5 then some 10
      else none
    predecessors := fun _ => none }

/-- The state produced by relaxing the edge 0 → 1 with cost 3 in
`mixedState` (the relaxation succeeds, so the Option.get is total). -/
def mixedRelaxed : ShortestPathFasterIter :=
  (relaxEdge threeCost 0 mixedState edgeZeroOne).get (by rfl)

/-- The iterator state produced by a successful construction over
`oneNodeGraph` with source 0, recording intermediates. -/
def initialOneNodeRecord : ShortestPathFasterIter :=
  { queue := [0]
    source := 0
    num_nodes := 1
    init := true
    next_node := none
    intermediates := Intermediates.Record
    candidate_order := SPFACandidateOrder.SmallFirst
    distances := fun n => if n = 0 then some 0 else none
    predecessors := fun n =>
      if Intermediates.Record = Intermediates.Record ∧ n = 0 then some none
      else none }

/-- `initialOneNodeRecord` after its first call to next (the init branch). -/
def steppedOneNodeRecord : ShortestPathFasterIter :=
  { initialOneNodeRecord with init := false, next_node := some 0 }

/-- A Record-mode state in which the current node 0 is about to improve
node 1 (recorded distance 5, predecessor entry already pointing at 0): the
relaxation of the edge 0 → 1 with cost 3 changes node 1's distance entry
in a step that completes (the reconstruction walk 1 → 0 terminates at the
source). -/
def preSetState : ShortestPathFasterIter :=
  { queue := [1]
    source := 0
    num_nodes := 2
    init := false
    next_node := some 0
    intermediates := Intermediates.Record
    candidate_order := SPFACandidateOrder.SmallFirst
    distances := fun n =>
      if n = 0 then some 0 else if n = 1 then some 5 else none
    predecessors := fun n =>
      if n = 0 then some none
      else if n = 1 then some (some 0) else none }

/-- The (route, state) pair produced by advancing `preSetState` once with
cost 3 on the edge 0 → 1: the step completes, so the Option.get is
total. -/
def setStepResult : Option Route × ShortestPathFasterIter :=
  (ShortestPathFasterIter.next threeCost twoNodeConnections preSetState).get
    (by rfl)

end Spfa

/-! ## Claim theorems -/

namespace Spfa

/-- C1: the claim states that for non-negative weights every node reachable
from the source eventually gets a route whose final cost is its shortest
distance.  The code instead aborts: on the directed graph 0 → 1 with unit
weights and source 0, node 1 is reachable with shortest distance 1, but the
second call to next indexes the distance table at the unreached node 1 and
panics, so the run ends with only the trivial source route yielded and no
route for node 1 at all. -/
theorem c1_reachable_node_gets_no_route :
    (ShortestPathFasterIter.new twoNodeGraph 0 Intermediates.Discard
        SPFACandidateOrder.SmallFirst).map
      (fun st => st.run unitCost twoNodeConnections 10)
    = Except.ok (RunResult.panicked [sourceRoute]) := by
  rfl

/-- C2: the claim states that a neighbor with an unset distance entry is
treated as infinitely far, its entry is created, and the lookup never fails.
In the code the relaxation indexes the distance table at the neighbor
before comparing; with neighbor 1 unset that index panics: the single-edge
relaxation step aborts (isSome = false) while the entry is unset, and the
full second call to next likewise aborts. -/
theorem c2_unset_neighbor_lookup_aborts :
    (ShortestPathFasterIter.new twoNodeGraph 0 Intermediates.Discard
        SPFACandidateOrder.SmallFirst).map
      (fun st =>
        (st.distances 1, (relaxEdge unitCost 0 st edgeZeroOne).isSome,
          (st.iterate unitCost twoNodeConnections 2).isSome))
    = Except.ok (none, false, false) := by
  rfl

/-- C3: the claim states that the number of yielded routes never exceeds the
node count (and equals the reachable count on connected graphs), with
size_hint (0, node count).  On the single-node edgeless graph the iterator
yields the trivial source route twice - once from the init branch and once
for the source pushed onto the queue at construction - so 2 routes exceed
the node count 1, contradicting the bound and the iterator's own size_hint
upper bound; the size_hint itself is (0, some 1) as stated. -/
theorem c3_yield_count_exceeds_node_count :
    (ShortestPathFasterIter.new oneNodeGraph 0 Intermediates.Discard
        SPFACandidateOrder.SmallFirst).map
      (fun st => (st.run unitCost noConnections 10, st.size_hint))
      = Except.ok (RunResult.finished [sourceRoute, sourceRoute],
          (0, some oneNodeGraph.num_nodes))
    ∧ oneNodeGraph.num_nodes < 2 := by
  exact ⟨rfl, by decide⟩

/-- C7: the claim states that a single-node edgeless graph yields exactly one
route and then terminates.  The code yields the trivial source route twice
(the init branch and the constructor's queue entry both produce it) before
the run finishes, under Record as well. -/
theorem c7_single_node_graph_yields_twice :
    (ShortestPathFasterIter.new oneNodeGraph 0 Intermediates.Record
        SPFACandidateOrder.LargeLast).map
      (fun st => st.run unitCost noConnections 25)
    = Except.ok (RunResult.finished [sourceRoute, sourceRoute]) := by
  rfl

/-- C4: the claim states that under SmallFirst an improving relaxation whose
new distance is below the queue front's distance pushes the node to the
front, and that the two policies give different insertion positions on some
input.  In the code the stored policy is never consulted: in mixedState
(policy SmallFirst, queue front 5 with distance 10) relaxing the edge
0 → 1 with cost 3 improves node 1 to distance 3 < 10 yet appends it at the
back (queue [5, 1], not [1, 5]); and full runs on the self-loop graph
under SmallFirst and LargeLast coincide step for step. -/
theorem c4_small_first_still_pushes_back :
    mixedState.candidate_order = SPFACandidateOrder.SmallFirst
    ∧ mixedState.distances 5 = some 10
    ∧ (relaxEdge threeCost 0 mixedState edgeZeroOne).map
        (fun s => (s.queue, s.distances 1)) = some ([5, 1], some 3)
    ∧ (ShortestPathFasterIter.new oneNodeGraph 0 Intermediates.Record
          SPFACandidateOrder.SmallFirst).map
        (fun st => st.run negCost loopConnections 6)
      = (ShortestPathFasterIter.new oneNodeGraph 0 Intermediates.Record
          SPFACandidateOrder.LargeLast).map
        (fun st => st.run negCost loopConnections 6) := by
  exact ⟨rfl, rfl, rfl, rfl⟩

/-- C6 counterexample: the claim states that construction is the only failure
point and that iteration exposes no further error conditions.  On the graph
0 → 1 with source 0 construction succeeds, yet the second call to next
aborts (the distance-table index at the unreached node 1 panics), so
iteration does have a failure point after successful construction. -/
theorem c6_iteration_can_abort :
    (ShortestPathFasterIter.new twoNodeGraph 0 Intermediates.Discard
        SPFACandidateOrder.SmallFirst).toOption.isSome = true
    ∧ (ShortestPathFasterIter.new twoNodeGraph 0 Intermediates.Discard
        SPFACandidateOrder.SmallFirst).map
      (fun st => (st.iterate unitCost twoNodeConnections 2).isSome)
      = Except.ok false := by
  exact ⟨rfl, rfl⟩

/-- C6 (amended): construction fails with NodeNotFound exactly when the
source identifier does not resolve in the graph, and succeeds exactly when
it does; iteration, however, has one further abort point (a distance-table
index at an unreached neighbor panics), exhibited here on the graph 0 → 1
where construction succeeds and the second call to next aborts. -/
theorem c6_construction_node_not_found :
    ∀ (graph : SPFAGraph) (source : Nat) (im : Intermediates)
      (co : SPFACandidateOrder),
      (ShortestPathFasterIter.new graph source im co
          = Except.error ShortestPathFasterError.NodeNotFound
        ↔ source ∉ graph.nodes)
      ∧ ((ShortestPathFasterIter.new graph source im co).toOption.isSome
        ↔ source ∈ graph.nodes)
      ∧ (ShortestPathFasterIter.new twoNodeGraph 0 Intermediates.Discard
            SPFACandidateOrder.SmallFirst).map
          (fun st => (st.iterate unitCost twoNodeConnections 2).isSome)
          = Except.ok false := by
  intro graph source im co
  refine ⟨?_, ?_, by rfl⟩ <;>
    by_cases h : source ∈ graph.nodes <;>
      simp [ShortestPathFasterIter.new, h, Except.toOption]

/-- C5: for every graph containing the source (equivalently, whenever
construction succeeds), the first call to next yields the trivial route
from the source to itself with empty intermediates and cost zero, and does
so before any relaxation: the successor state differs from the constructed
one only in the init flag and the next_node bookmark, leaving the distance
table, the predecessor ledger and the queue untouched. -/
theorem c5_first_route_is_trivial :
    ∀ (graph : SPFAGraph) (source : Nat) (im : Intermediates)
      (co : SPFACandidateOrder) (cost : Edge → Int)
      (conns : Nat → List Edge) (st : ShortestPathFasterIter),
      ShortestPathFasterIter.new graph source im co = Except.ok st →
      st.next cost conns =
        some
          (some
            { path :=
                { source := source, target := source, intermediates := [] }
              cost := 0 },
            { st with init := false, next_node := some source }) := by
  intro graph source im co cost conns st h
  unfold ShortestPathFasterIter.new at h
  split at h
  · injection h with h'
    subst h'
    rfl
  · exact absurd h (by simp)

/-- Witness for C5 at the single-node graph with source 0. -/
theorem c5_first_route_is_trivial_witness :
    ShortestPathFasterIter.new oneNodeGraph 0 Intermediates.Discard
        SPFACandidateOrder.SmallFirst = Except.ok initialOneNode
    ∧ initialOneNode.next unitCost noConnections =
        some
          (some
            { path := { source := 0, target := 0, intermediates := [] }
              cost := 0 },
            { initialOneNode with init := false, next_node := some 0 }) :=
  ⟨rfl,
    c5_first_route_is_trivial oneNodeGraph 0 Intermediates.Discard
      SPFACandidateOrder.SmallFirst unitCost noConnections initialOneNode rfl⟩

end Spfa

namespace Spfa

/-- C9: two engines constructed over the same unmodified graph with the same
cost extractor, connections provider, source, reconstruction flag and
ordering policy produce, when driven for the same number of steps, the same
multiset of (target, cost) pairs: construction and iteration are
deterministic functions of their inputs. -/
theorem c9_two_run_determinism :
    ∀ (graph : SPFAGraph) (source : Nat) (im : Intermediates)
      (co : SPFACandidateOrder) (cost : Edge → Int)
      (conns : Nat → List Edge) (st₁ st₂ : ShortestPathFasterIter)
      (fuel : Nat),
      ShortestPathFasterIter.new graph source im co = Except.ok st₁ →
      ShortestPathFasterIter.new graph source im co = Except.ok st₂ →
      routePairs (st₁.run cost conns fuel).routes
        = routePairs (st₂.run cost conns fuel).routes := by
  intro graph source im co cost conns st₁ st₂ fuel h₁ h₂
  rw [h₁] at h₂
  injection h₂ with h
  rw [h]

/-- Witness for C9: the two constructions over the single-node graph give
the same state, hence the same pairs. -/
theorem c9_two_run_determinism_witness :
    routePairs
        ((ShortestPathFasterIter.run unitCost noConnections initialOneNode
          5).routes)
      = routePairs
        ((ShortestPathFasterIter.run unitCost noConnections initialOneNode
          5).routes) :=
  c9_two_run_determinism oneNodeGraph 0 Intermediates.Discard
    SPFACandidateOrder.SmallFirst unitCost noConnections initialOneNode
    initialOneNode 5 rfl rfl

/-- Changing only the candidate-order field commutes with a single edge
relaxation: the relaxation never reads the field. -/
theorem relaxEdge_order (cost : Edge → Int) (node : Nat) (e : Edge)
    (q : List Nat) (src nn : Nat) (i : Bool) (x : Option Nat)
    (m : Intermediates) (o₁ o₂ : SPFACandidateOrder)
    (d : Nat → Option Int) (p : Nat → Option (Option Nat)) :
    relaxEdge cost node ⟨q, src, nn, i, x, m, o₁, d, p⟩ e
      = (relaxEdge cost node ⟨q, src, nn, i, x, m, o₂, d, p⟩ e).map
          (fun s => { s with candidate_order := o₁ }) := by
  simp only [relaxEdge]
  cases d node <;> cases d (relaxTarget node e) <;> simp only [] <;> try rfl
  split <;> rfl

/-- Changing only the candidate-order field commutes with the whole
relaxation loop. -/
theorem relaxAll_order (cost : Edge → Int) (node : Nat) :
    ∀ (es : List Edge) (q : List Nat) (src nn : Nat) (i : Bool)
      (x : Option Nat) (m : Intermediates) (o₁ o₂ : SPFACandidateOrder)
      (d : Nat → Option Int) (p : Nat → Option (Option Nat)),
      relaxAll cost node ⟨q, src, nn, i, x, m, o₁, d, p⟩ es
        = (relaxAll cost node ⟨q, src, nn, i, x, m, o₂, d, p⟩ es).map
            (fun s => { s with candidate_order := o₁ }) := by
  intro es
  induction es with
  | nil => intro q src nn i x m o₁ o₂ d p; rfl
  | cons e es ih =>
    intro q src nn i x m o₁ o₂ d p
    simp only [relaxAll]
    rw [relaxEdge_order cost node e q src nn i x m o₁ o₂ d p]
    cases hre : relaxEdge cost node ⟨q, src, nn, i, x, m, o₂, d, p⟩ e with
    | none => rfl
    | some t =>
      obtain ⟨q', src', nn', i', x', m', o', d', p'⟩ := t
      simp only [Option.map_some]
      exact ih q' src' nn' i' x' m' o₁ o' d' p'

/-- Changing only the candidate-order field commutes with one call to next:
no operation after construction consults the field. -/
theorem next_order (cost : Edge → Int) (conns : Nat → List Edge)
    (q : List Nat) (src nn : Nat) (i : Bool) (x : Option Nat)
    (m : Intermediates) (o₁ o₂ : SPFACandidateOrder)
    (d : Nat → Option Int) (p : Nat → Option (Option Nat)) :
    ShortestPathFasterIter.next cost conns ⟨q, src, nn, i, x, m, o₁, d, p⟩
      = (ShortestPathFasterIter.next cost conns
          ⟨q, src, nn, i, x, m, o₂, d, p⟩).map
          (fun rs => (rs.fst, { rs.snd with candidate_order := o₁ })) := by
  simp only [ShortestPathFasterIter.next]
  cases i with
  | true => rfl
  | false =>
    cases x with
    | none => rfl
    | some node =>
      have hall := relaxAll_order cost node (conns node) q src nn false
        (some node) m o₁ o₂ d p
      cases hra : relaxAll cost node
          ⟨q, src, nn, false, some node, m, o₂, d, p⟩ (conns node) with
      | none =>
        rw [hra] at hall
        simp only [Option.map_none'] at hall
        simp only [hall, hra]
        rfl
      | some st1 =>
        rw [hra] at hall
        simp only [Option.map_some'] at hall
        simp only [hall, hra, Option.map_some']
        cases hpf : DoubleEndedQueue.pop_front st1.queue with
        | none =>
          simp only [hpf]
          rfl
        | some pair =>
          obtain ⟨n, rest⟩ := pair
          simp only [hpf]
          cases hdst : st1.distances n with
          | none =>
            simp only [hdst]
            rfl
          | some dist =>
            simp only [hdst]
            cases hri : (if st1.intermediates = Intermediates.Discard
                then some []
                else reconstruct_intermediates st1.predecessors n
                  (st1.num_nodes + 1)) with
            | none =>
              simp only [hri]
              rfl
            | some inters =>
              simp only [hri]
              rfl

/-- Changing only the candidate-order field does not change any route the
run produces. -/
theorem run_order (cost : Edge → Int) (conns : Nat → List Edge) :
    ∀ (fuel : Nat) (q : List Nat) (src nn : Nat) (i : Bool)
      (x : Option Nat) (m : Intermediates) (o₁ o₂ : SPFACandidateOrder)
      (d : Nat → Option Int) (p : Nat → Option (Option Nat)),
      ShortestPathFasterIter.run cost conns ⟨q, src, nn, i, x, m, o₁, d, p⟩
          fuel
        = ShortestPathFasterIter.run cost conns
            ⟨q, src, nn, i, x, m, o₂, d, p⟩ fuel := by
  intro fuel
  induction fuel with
  | zero => intro q src nn i x m o₁ o₂ d p; rfl
  | succ fuel ih =>
    intro q src nn i x m o₁ o₂ d p
    simp only [ShortestPathFasterIter.run]
    rw [next_order cost conns q src nn i x m o₁ o₂ d p]
    cases hnx : ShortestPathFasterIter.next cost conns
        ⟨q, src, nn, i, x, m, o₂, d, p⟩ with
    | none => rfl
    | some rs =>
      obtain ⟨res, t⟩ := rs
      cases res with
      | none => rfl
      | some r =>
        obtain ⟨q', src', nn', i', x', m', o', d', p'⟩ := t
        simp only [Option.map_some']
        rw [ih q' src' nn' i' x' m' o₁ o' d' p']

/-- C10: the candidate-ordering policy has no effect: engines constructed
with SmallFirst and LargeLast over the same inputs produce identical run
results, element for element and in order; and every queue insertion
performed by a successful relaxation step is a push to the back of the
work queue (the queue is either unchanged or extended at the back by the
relaxed target), never a push to the front. -/
theorem c10_candidate_order_never_consulted :
    (∀ (graph : SPFAGraph) (source : Nat) (im : Intermediates)
       (cost : Edge → Int) (conns : Nat → List Edge) (fuel : Nat),
      (ShortestPathFasterIter.new graph source im
          SPFACandidateOrder.SmallFirst).map
        (fun st => st.run cost conns fuel)
      = (ShortestPathFasterIter.new graph source im
          SPFACandidateOrder.LargeLast).map
        (fun st => st.run cost conns fuel))
    ∧ ∀ (cost : Edge → Int) (node : Nat) (st st' : ShortestPathFasterIter)
        (e : Edge),
        relaxEdge cost node st e = some st' →
        st'.queue = st.queue
        ∨ st'.queue = DoubleEndedQueue.push_back st.queue (relaxTarget node e) := by
  constructor
  · intro graph source im cost conns fuel
    unfold ShortestPathFasterIter.new
    by_cases h : source ∈ graph.nodes
    · rw [if_pos h, if_pos h]
      simp only [Except.map]
      exact congrArg Except.ok (run_order cost conns fuel _ _ _ _ _ _ _ _ _ _)
    · rw [if_neg h, if_neg h]
  · intro cost node st st' e h
    simp only [relaxEdge] at h
    split at h
    · split at h
      · injection h with h'
        subst h'
        right
        rfl
      · injection h with h'
        subst h'
        left
        rfl
    · exact absurd h (by simp)

/-- Witness for C10 at the single-node self-loop graph and at the concrete
relaxation of mixedState: the relaxed node 1 lands at the back of the
queue. -/
theorem c10_candidate_order_never_consulted_witness :
    ((ShortestPathFasterIter.new oneNodeGraph 0 Intermediates.Record
        SPFACandidateOrder.SmallFirst).map
      (fun st => st.run negCost loopConnections 6)
    = (ShortestPathFasterIter.new oneNodeGraph 0 Intermediates.Record
        SPFACandidateOrder.LargeLast).map
      (fun st => st.run negCost loopConnections 6))
    ∧ (mixedRelaxed.queue = mixedState.queue
      ∨ mixedRelaxed.queue
          = DoubleEndedQueue.push_back mixedState.queue
              (relaxTarget 0 edgeZeroOne)) :=
  ⟨c10_candidate_order_never_consulted.1 oneNodeGraph 0 Intermediates.Record
      negCost loopConnections 6,
    c10_candidate_order_never_consulted.2 threeCost 0 mixedState mixedRelaxed
      edgeZeroOne (Option.some_get _).symm⟩

end Spfa

namespace Spfa
/-- Exhaustive description of a successful single-edge relaxation: both
distance lookups succeeded, and the result is either the improving update
or the unchanged state. -/
theorem relaxEdge_cases (cost : Edge → Int) (node : Nat)
    (st : ShortestPathFasterIter) (e : Edge)
    (st' : ShortestPathFasterIter)
    (h : relaxEdge cost node st e = some st') :
    ∃ dn dt, st.distances node = some dn
      ∧ st.distances (relaxTarget node e) = some dt
      ∧ ((dn + cost e < dt
            ∧ st' =
              { st with
                distances := fun n =>
                  if n = relaxTarget node e then some (dn + cost e)
                  else st.distances n
                predecessors := fun n =>
                  if st.intermediates = Intermediates.Record
                      ∧ n = relaxTarget node e then
                    some (some node)
                  else st.predecessors n
                queue := DoubleEndedQueue.push_back st.queue
                  (relaxTarget node e) })
        ∨ (¬ dn + cost e < dt ∧ st' = st)) := by
  simp only [relaxEdge] at h
  cases hdn : st.distances node with
  | none => rw [hdn] at h; exact absurd h (by simp)
  | some dn =>
    cases hdt : st.distances (relaxTarget node e) with
    | none => rw [hdn, hdt] at h; exact absurd h (by simp)
    | some dt =>
      rw [hdn, hdt] at h
      simp only [] at h
      refine ⟨dn, dt, rfl, rfl, ?_⟩
      by_cases hlt : dn + cost e < dt
      · rw [if_pos hlt] at h
        injection h with h'
        exact Or.inl ⟨hlt, h'.symm⟩
      · rw [if_neg hlt] at h
        injection h with h'
        exact Or.inr ⟨hlt, h'.symm⟩


/-- A single-edge relaxation leaves the source, node count, init flag,
bookmark and intermediates flag unchanged. -/
theorem relaxEdge_frame (cost : Edge → Int) (node : Nat)
    (st : ShortestPathFasterIter) (e : Edge)
    (st' : ShortestPathFasterIter)
    (h : relaxEdge cost node st e = some st') :
    st'.source = st.source ∧ st'.intermediates = st.intermediates
      ∧ st'.init = st.init ∧ st'.next_node = st.next_node
      ∧ st'.num_nodes = st.num_nodes := by
  obtain ⟨dn, dt, hdn, hdt, hcase⟩ := relaxEdge_cases cost node st e st' h
  rcases hcase with ⟨-, rfl⟩ | ⟨-, rfl⟩ <;> exact ⟨rfl, rfl, rfl, rfl, rfl⟩
/-- Atomicity of a single-edge relaxation when intermediates are recorded:
if the distance entry of a node changed, its predecessor entry was set to
the current node in the same step, and no predecessor entry ever changes to
anything else. -/
theorem relaxEdge_atomic (cost : Edge → Int) (node : Nat)
    (st : ShortestPathFasterIter) (e : Edge)
    (st' : ShortestPathFasterIter)
    (hrec : st.intermediates = Intermediates.Record)
    (h : relaxEdge cost node st e = some st') :
    (∀ n, st'.distances n ≠ st.distances n →
      st'.predecessors n = some (some node))
    ∧ (∀ n, st'.predecessors n = st.predecessors n
        ∨ st'.predecessors n = some (some node)) := by
  obtain ⟨dn, dt, hdn, hdt, hcase⟩ := relaxEdge_cases cost node st e st' h
  rcases hcase with ⟨hlt, rfl⟩ | ⟨-, rfl⟩
  · constructor
    · intro n hne
      by_cases hEq : n = relaxTarget node e
      · show (if st.intermediates = Intermediates.Record
              ∧ n = relaxTarget node e then some (some node)
          else st.predecessors n) = some (some node)
        rw [if_pos ⟨hrec, hEq⟩]
      · exact absurd (by simp only [if_neg hEq]) hne
    · intro n
      by_cases hEq : n = relaxTarget node e
      · exact Or.inr (by
          show (if st.intermediates = Intermediates.Record
                  ∧ n = relaxTarget node e then some (some node)
              else st.predecessors n) = some (some node)
          rw [if_pos ⟨hrec, hEq⟩])
      · exact Or.inl (by
          show (if st.intermediates = Intermediates.Record
                  ∧ n = relaxTarget node e then some (some node)
              else st.predecessors n) = st.predecessors n
          rw [if_neg (fun hand => hEq hand.2)])
  · exact ⟨fun n hne => absurd rfl hne, fun n => Or.inl rfl⟩

/-- Atomicity of the whole relaxation loop. -/
theorem relaxAll_atomic (cost : Edge → Int) (node : Nat) :
    ∀ (es : List Edge) (st st' : ShortestPathFasterIter),
      st.intermediates = Intermediates.Record →
      relaxAll cost node st es = some st' →
      (∀ n, st'.distances n ≠ st.distances n →
        st'.predecessors n = some (some node))
      ∧ (∀ n, st'.predecessors n = st.predecessors n
          ∨ st'.predecessors n = some (some node)) := by
  intro es
  induction es with
  | nil =>
    intro st st' hrec h
    simp only [relaxAll] at h
    injection h with h'
    subst h'
    exact ⟨fun n hne => absurd rfl hne, fun n => Or.inl rfl⟩
  | cons e es ih =>
    intro st st' hrec h
    simp only [relaxAll] at h
    cases hre : relaxEdge cost node st e with
    | none => rw [hre] at h; exact absurd h (by simp)
    | some st₁ =>
      rw [hre] at h
      simp only [] at h
      have hrec₁ : st₁.intermediates = Intermediates.Record :=
        (relaxEdge_frame cost node st e st₁ hre).2.1.trans hrec
      obtain ⟨ihd, ihp⟩ := ih st₁ st' hrec₁ h
      obtain ⟨hed, hep⟩ := relaxEdge_atomic cost node st e st₁ hrec hre
      constructor
      · intro n hne
        by_cases h1 : st'.distances n = st₁.distances n
        · have h2 : st₁.distances n ≠ st.distances n := fun hEq =>
            hne (h1.trans hEq)
          have hp1 : st₁.predecessors n = some (some node) := hed n h2
          rcases ihp n with hkeep | hset
          · exact hkeep.trans hp1
          · exact hset
        · exact ihd n h1
      · intro n
        rcases ihp n with hkeep | hset
        · rcases hep n with hkeep' | hset'
          · exact Or.inl (hkeep.trans hkeep')
          · exact Or.inr (hkeep.trans hset')
        · exact Or.inr hset

/-- The relaxation loop leaves the source, node count, init flag, bookmark
and intermediates flag unchanged. -/
theorem relaxAll_frame (cost : Edge → Int) (node : Nat) :
    ∀ (es : List Edge) (st st' : ShortestPathFasterIter),
      relaxAll cost node st es = some st' →
      st'.source = st.source ∧ st'.intermediates = st.intermediates
        ∧ st'.init = st.init ∧ st'.next_node = st.next_node
        ∧ st'.num_nodes = st.num_nodes := by
  intro es
  induction es with
  | nil =>
    intro st st' h
    simp only [relaxAll] at h
    injection h with h'
    subst h'
    exact ⟨rfl, rfl, rfl, rfl, rfl⟩
  | cons e es ih =>
    intro st st' h
    simp only [relaxAll] at h
    cases hre : relaxEdge cost node st e with
    | none => rw [hre] at h; exact absurd h (by simp)
    | some st₁ =>
      rw [hre] at h
      simp only [] at h
      obtain ⟨hsrc1, hmid1, hini1, hnx1, hnum1⟩ := ih st₁ st' h
      obtain ⟨fsrc, fmid, fini, fnx, fnum⟩ :=
        relaxEdge_frame cost node st e st₁ hre
      exact ⟨hsrc1.trans fsrc, hmid1.trans fmid, hini1.trans fini,
        hnx1.trans fnx, hnum1.trans fnum⟩

/-- Popping the front of a nonempty queue returns its head and tail. -/
theorem pop_front_eq_cons (q : List Nat) (n : Nat) (rest : List Nat)
    (h : DoubleEndedQueue.pop_front q = some (n, rest)) : q = n :: rest := by
  cases q with
  | nil => exact absurd h (by simp [DoubleEndedQueue.pop_front])
  | cons x xs =>
    simp only [DoubleEndedQueue.pop_front] at h
    injection h with h'
    rw [Prod.mk.injEq] at h'
    obtain ⟨h1, h2⟩ := h'
    rw [h1, h2]

/-- Popping the front returns nothing only for the empty queue. -/
theorem pop_front_eq_nil (q : List Nat)
    (h : DoubleEndedQueue.pop_front q = none) : q = [] := by
  cases q with
  | nil => rfl
  | cons x xs => exact absurd h (by simp [DoubleEndedQueue.pop_front])

/-- The reconstruction walk never terminates from a node that is its own
recorded predecessor, whatever the fuel. -/
theorem reconstructWalk_cyclic (predecessors : Nat → Option (Option Nat))
    (s : Nat) (hcyc : predecessors s = some (some s)) :
    ∀ fuel, reconstructWalk predecessors fuel s = none := by
  intro fuel
  induction fuel with
  | zero => rfl
  | succ fuel ih => simp only [reconstructWalk, hcyc, ih]


/-- The reachable-state invariant of a Record-mode engine: the ledger holds
exactly the source entry, valued none; only the source has a distance
entry; and the queue holds only the source.  (On every state the program
reaches without panicking these hold, because relaxing an edge toward a
node with no distance entry panics, so entries never spread beyond the
source.) -/
def RecordInv (st : ShortestPathFasterIter) : Prop :=
  (∀ n, st.predecessors n = if n = st.source then some none else none)
  ∧ (∀ n, n ≠ st.source → st.distances n = none)
  ∧ (∃ d0, st.distances st.source = some d0)
  ∧ (∀ n, n ∈ st.queue → n = st.source)

/-- The transient shape after an improving relaxation in Record mode: the
source's ledger entry has been overwritten with the source itself (a
cycle), the other entries are unchanged, and the push of the improved
target keeps the queue nonempty. -/
def OverwrittenInv (st : ShortestPathFasterIter) : Prop :=
  (∀ n, st.predecessors n
      = if n = st.source then some (some st.source) else none)
  ∧ (∀ n, n ≠ st.source → st.distances n = none)
  ∧ (∃ d0, st.distances st.source = some d0)
  ∧ (∀ n, n ∈ st.queue → n = st.source)
  ∧ st.queue ≠ []

/-- A successful distance lookup identifies the source, when only the
source has an entry. -/
theorem dist_key_source (st : ShortestPathFasterIter)
    (hd : ∀ n, n ≠ st.source → st.distances n = none)
    (x : Nat) (dv : Int) (hx : st.distances x = some dv) : x = st.source := by
  by_contra hne
  rw [hd x hne] at hx
  exact absurd hx (by simp)

/-- A single-edge relaxation in Record mode keeps a reachable state in the
record invariant or moves it to the overwritten shape, and keeps the
overwritten shape. -/
theorem relaxEdge_recordInv (cost : Edge → Int) (node : Nat)
    (st : ShortestPathFasterIter) (e : Edge)
    (st' : ShortestPathFasterIter)
    (hrec : st.intermediates = Intermediates.Record)
    (h : relaxEdge cost node st e = some st')
    (hinv : RecordInv st ∨ OverwrittenInv st) :
    RecordInv st' ∨ OverwrittenInv st' := by
  obtain ⟨dn, dt, hdn, hdt, hcase⟩ := relaxEdge_cases cost node st e st' h
  have hd : ∀ n, n ≠ st.source → st.distances n = none := by
    rcases hinv with ⟨-, hd, -, -⟩ | ⟨-, hd, -, -, -⟩ <;> exact hd
  have hq : ∀ n, n ∈ st.queue → n = st.source := by
    rcases hinv with ⟨-, -, -, hq⟩ | ⟨-, -, -, hq, -⟩ <;> exact hq
  have hnode : node = st.source := dist_key_source st hd node dn hdn
  have htgt : relaxTarget node e = st.source :=
    dist_key_source st hd (relaxTarget node e) dt hdt
  rcases hcase with ⟨hlt, rfl⟩ | ⟨-, rfl⟩
  · right
    refine ⟨?_, ?_, ?_, ?_, ?_⟩
    · intro n
      show (if st.intermediates = Intermediates.Record
            ∧ n = relaxTarget node e then some (some node)
          else st.predecessors n)
        = if n = st.source then some (some st.source) else none
      by_cases hn : n = st.source
      · rw [if_pos ⟨hrec, htgt ▸ hn⟩, if_pos hn, hnode]
      · rw [if_neg (fun hand => hn (htgt ▸ hand.2)), if_neg hn]
        rcases hinv with ⟨hp, -, -, -⟩ | ⟨hp, -, -, -, -⟩ <;>
          rw [hp n, if_neg hn]
    · intro n hn
      show (if n = relaxTarget node e then some (dn + cost e)
          else st.distances n) = none
      rw [if_neg (fun hEq => hn (htgt ▸ hEq)), hd n hn]
    · refine ⟨dn + cost e, ?_⟩
      show (if st.source = relaxTarget node e then some (dn + cost e)
          else st.distances st.source) = some (dn + cost e)
      rw [if_pos htgt.symm]
    · intro n hn
      show n = st.source
      rcases List.mem_append.mp hn with hmem | hmem
      · exact hq n hmem
      · rw [List.mem_singleton.mp hmem]
        exact htgt
    · show st.queue ++ [relaxTarget node e] ≠ []
      simp
  · exact hinv

/-- The relaxation loop in Record mode keeps a reachable state in the
record invariant or moves it to the overwritten shape. -/
theorem relaxAll_recordInv (cost : Edge → Int) (node : Nat) :
    ∀ (es : List Edge) (st st' : ShortestPathFasterIter),
      st.intermediates = Intermediates.Record →
      relaxAll cost node st es = some st' →
      (RecordInv st ∨ OverwrittenInv st) →
      RecordInv st' ∨ OverwrittenInv st' := by
  intro es
  induction es with
  | nil =>
    intro st st' hrec h hinv
    simp only [relaxAll] at h
    injection h with h'
    subst h'
    exact hinv
  | cons e es ih =>
    intro st st' hrec h hinv
    simp only [relaxAll] at h
    cases hre : relaxEdge cost node st e with
    | none => rw [hre] at h; exact absurd h (by simp)
    | some st₁ =>
      rw [hre] at h
      simp only [] at h
      exact ih st₁ st'
        ((relaxEdge_frame cost node st e st₁ hre).2.1.trans hrec) h
        (relaxEdge_recordInv cost node st e st₁ hrec hre hinv)


/-- A completed advance of a Record-mode engine preserves the record
invariant: an advance whose relaxation overwrites the source's ledger entry
makes the ledger cyclic, its reconstruction walk never terminates, and the
advance never completes, so it contributes no successor state here. -/
theorem next_recordInv (cost : Edge → Int) (conns : Nat → List Edge)
    (st : ShortestPathFasterIter) (res : Option Route)
    (st' : ShortestPathFasterIter)
    (hrec : st.intermediates = Intermediates.Record)
    (h : ShortestPathFasterIter.next cost conns st = some (res, st'))
    (hinv : RecordInv st) :
    RecordInv st' ∧ st'.source = st.source
      ∧ st'.intermediates = st.intermediates := by
  simp only [ShortestPathFasterIter.next] at h
  cases hini : st.init with
  | true =>
    rw [hini] at h
    simp only [if_pos] at h
    injection h with h'
    rw [Prod.mk.injEq] at h'
    obtain ⟨-, h2⟩ := h'
    subst h2
    exact ⟨hinv, rfl, rfl⟩
  | false =>
    rw [hini] at h
    simp only [Bool.false_eq_true, if_false] at h
    cases hnx : st.next_node with
    | none =>
      rw [hnx] at h
      simp only [] at h
      injection h with h'
      rw [Prod.mk.injEq] at h'
      obtain ⟨-, h2⟩ := h'
      subst h2
      exact ⟨hinv, rfl, rfl⟩
    | some node =>
      rw [hnx] at h
      simp only [] at h
      cases hra : relaxAll cost node st (conns node) with
      | none => rw [hra] at h; exact absurd h (by simp)
      | some st1 =>
        rw [hra] at h
        simp only [] at h
        obtain ⟨fsrc, fmid, -, -, -⟩ :=
          relaxAll_frame cost node (conns node) st st1 hra
        have hrec1 : st1.intermediates = Intermediates.Record :=
          fmid.trans hrec
        have hinv1 : RecordInv st1 ∨ OverwrittenInv st1 :=
          relaxAll_recordInv cost node (conns node) st st1 hrec hra
            (Or.inl hinv)
        cases hpf : DoubleEndedQueue.pop_front st1.queue with
        | none =>
          rw [hpf] at h
          simp only [] at h
          injection h with h'
          rw [Prod.mk.injEq] at h'
          obtain ⟨-, h2⟩ := h'
          subst h2
          rcases hinv1 with hgood | hbad
          · exact ⟨hgood, fsrc, fmid⟩
          · exact absurd (pop_front_eq_nil st1.queue hpf) hbad.2.2.2.2
        | some pair =>
          obtain ⟨n, rest⟩ := pair
          rw [hpf] at h
          simp only [] at h
          have hqcons : st1.queue = n :: rest :=
            pop_front_eq_cons st1.queue n rest hpf
          cases hdst : st1.distances n with
          | none => rw [hdst] at h; exact absurd h (by simp)
          | some dist =>
            rw [hdst] at h
            simp only [] at h
            rw [if_neg (by rw [hrec1]; exact fun hEq => by cases hEq)] at h
            rcases hinv1 with hgood | hbad
            · have hnsrc : n = st1.source :=
                hgood.2.2.2 n (by rw [hqcons]; exact List.mem_cons_self n rest)
              have hpn : st1.predecessors n = some none := by
                rw [hgood.1 n, if_pos hnsrc]
              rw [show reconstruct_intermediates st1.predecessors n
                    (st1.num_nodes + 1) = some [] by
                  simp only [reconstruct_intermediates, reconstructWalk, hpn]
                  rfl] at h
              simp only [] at h
              injection h with h'
              rw [Prod.mk.injEq] at h'
              obtain ⟨-, h2⟩ := h'
              subst h2
              refine ⟨⟨hgood.1, hgood.2.1, hgood.2.2.1, ?_⟩, fsrc, fmid⟩
              intro x hx
              exact hgood.2.2.2 x (by rw [hqcons]; exact List.mem_cons_of_mem n hx)
            · have hnsrc : n = st1.source :=
                hbad.2.2.2.1 n (by rw [hqcons]; exact List.mem_cons_self n rest)
              have hpn : st1.predecessors n = some (some n) := by
                rw [hbad.1 n, if_pos hnsrc, hnsrc]
              rw [show reconstruct_intermediates st1.predecessors n
                    (st1.num_nodes + 1) = none by
                  simp only [reconstruct_intermediates,
                    reconstructWalk_cyclic st1.predecessors n hpn]
                  rfl] at h
              exact absurd h (by simp)


/-- Every completed sequence of advances of a Record-mode engine preserves
the record invariant. -/
theorem iterate_recordInv (cost : Edge → Int) (conns : Nat → List Edge) :
    ∀ (k : Nat) (st st' : ShortestPathFasterIter),
      st.intermediates = Intermediates.Record →
      ShortestPathFasterIter.iterate cost conns st k = some st' →
      RecordInv st → RecordInv st' := by
  intro k
  induction k with
  | zero =>
    intro st st' hrec h hinv
    simp only [ShortestPathFasterIter.iterate] at h
    injection h with h'
    subst h'
    exact hinv
  | succ k ih =>
    intro st st' hrec h hinv
    simp only [ShortestPathFasterIter.iterate] at h
    cases hnx : ShortestPathFasterIter.next cost conns st with
    | none => rw [hnx] at h; exact absurd h (by simp)
    | some rs =>
      obtain ⟨res, st1⟩ := rs
      rw [hnx] at h
      simp only [] at h
      obtain ⟨hinv1, -, hmid1⟩ :=
        next_recordInv cost conns st res st1 hrec hnx hinv
      exact ih st1 st' (hmid1.trans hrec) h hinv1

/-- A freshly constructed Record-mode engine satisfies the record
invariant. -/
theorem new_recordInv (graph : SPFAGraph) (source : Nat)
    (co : SPFACandidateOrder) (st₀ : ShortestPathFasterIter)
    (h : ShortestPathFasterIter.new graph source Intermediates.Record co
      = Except.ok st₀) :
    RecordInv st₀ ∧ st₀.intermediates = Intermediates.Record := by
  unfold ShortestPathFasterIter.new at h
  split at h
  · injection h with h'
    subst h'
    refine ⟨⟨?_, ?_, ⟨0, ?_⟩, ?_⟩, rfl⟩
    · intro n
      show (if Intermediates.Record = Intermediates.Record ∧ n = source
          then some none else none)
        = if n = source then some none else none
      by_cases hn : n = source
      · rw [if_pos ⟨rfl, hn⟩, if_pos hn]
      · rw [if_neg (fun hand => hn hand.2), if_neg hn]
    · intro n hn
      show (if n = source then some 0 else none) = none
      rw [if_neg hn]
    · show (if source = source then some 0 else none) = some 0
      rw [if_pos rfl]
    · intro n hn
      show n = source
      simpa [DoubleEndedQueue.push_back] using hn
  · exact absurd h (by simp)

/-- Atomicity at the level of next: in a completed step that changes some
distance entry, that entry's predecessor is set, in the same step, to the
current node (the node held in the next bookmark). -/
theorem next_atomic (cost : Edge → Int) (conns : Nat → List Edge)
    (st : ShortestPathFasterIter) (res : Option Route)
    (st' : ShortestPathFasterIter)
    (hrec : st.intermediates = Intermediates.Record)
    (h : ShortestPathFasterIter.next cost conns st = some (res, st')) :
    ∀ n, st'.distances n ≠ st.distances n →
      st'.predecessors n = Option.map (fun c => some c) st.next_node := by
  simp only [ShortestPathFasterIter.next] at h
  cases hini : st.init with
  | true =>
    rw [hini] at h
    simp only [if_pos] at h
    injection h with h'
    rw [Prod.mk.injEq] at h'
    obtain ⟨-, h2⟩ := h'
    subst h2
    exact fun n hne => absurd rfl hne
  | false =>
    rw [hini] at h
    simp only [Bool.false_eq_true, if_false] at h
    cases hnx : st.next_node with
    | none =>
      rw [hnx] at h
      simp only [] at h
      injection h with h'
      rw [Prod.mk.injEq] at h'
      obtain ⟨-, h2⟩ := h'
      subst h2
      exact fun n hne => absurd rfl hne
    | some node =>
      rw [hnx] at h
      simp only [] at h
      cases hra : relaxAll cost node st (conns node) with
      | none => rw [hra] at h; exact absurd h (by simp)
      | some st1 =>
        rw [hra] at h
        simp only [] at h
        obtain ⟨had, -⟩ :=
          relaxAll_atomic cost node (conns node) st st1 hrec hra
        cases hpf : DoubleEndedQueue.pop_front st1.queue with
        | none =>
          rw [hpf] at h
          simp only [] at h
          injection h with h'
          rw [Prod.mk.injEq] at h'
          obtain ⟨-, h2⟩ := h'
          subst h2
          intro n hne
          simp only [Option.map_some']
          exact had n hne
        | some pair =>
          obtain ⟨n0, rest⟩ := pair
          rw [hpf] at h
          simp only [] at h
          cases hdst : st1.distances n0 with
          | none => rw [hdst] at h; exact absurd h (by simp)
          | some dist =>
            rw [hdst] at h
            simp only [] at h
            cases hri : (if st1.intermediates = Intermediates.Discard
                then some []
                else reconstruct_intermediates st1.predecessors n0
                  (st1.num_nodes + 1)) with
            | none => rw [hri] at h; exact absurd h (by simp)
            | some inters =>
              rw [hri] at h
              simp only [] at h
              injection h with h'
              rw [Prod.mk.injEq] at h'
              obtain ⟨-, h2⟩ := h'
              subst h2
              intro n hne
              simp only [Option.map_some']
              exact had n hne


/-- C8: with path reconstruction enabled (Record), after construction and
after every completed advance the source has a predecessor entry of none -
an advance whose relaxation would overwrite the source's entry makes the
ledger cyclic and its reconstruction walk never terminates, so that
advance never completes and contributes no observation point - and in
every completed advance of a Record-mode state that changes a node's
distance entry, that node's predecessor entry is set in the same step to
the current node (the node in the next bookmark), so the recorded
predecessor of a node is the one through which its currently recorded
distance was obtained. -/
theorem c8_predecessor_ledger_invariant :
    ∀ (graph : SPFAGraph) (source : Nat) (co : SPFACandidateOrder)
      (cost : Edge → Int) (conns : Nat → List Edge)
      (st₀ st : ShortestPathFasterIter) (k : Nat),
      ShortestPathFasterIter.new graph source Intermediates.Record co
        = Except.ok st₀ →
      ShortestPathFasterIter.iterate cost conns st₀ k = some st →
      st.predecessors st.source = some none
      ∧ ∀ (cost' : Edge → Int) (conns' : Nat → List Edge)
          (t : ShortestPathFasterIter) (res : Option Route)
          (t' : ShortestPathFasterIter),
          t.intermediates = Intermediates.Record →
          ShortestPathFasterIter.next cost' conns' t = some (res, t') →
          ∀ n, t'.distances n ≠ t.distances n →
            t'.predecessors n = Option.map (fun c => some c) t.next_node := by
  intro graph source co cost conns st₀ st k hnew hiter
  obtain ⟨hinv0, hmid0⟩ := new_recordInv graph source co st₀ hnew
  have hinv := iterate_recordInv cost conns k st₀ st hmid0 hiter hinv0
  constructor
  · have hp := hinv.1 st.source
    rw [if_pos rfl] at hp
    exact hp
  · intro cost' conns' t res t' hrec hstep
    exact next_atomic cost' conns' t res t' hrec hstep

/-- Witness for C8: after the first advance over the single-node graph the
source's predecessor entry is none, and the completed advance of
preSetState (which improves node 1 from distance 5 to 3) sets node 1's
predecessor to the current node 0 in that very step. -/
theorem c8_predecessor_ledger_invariant_witness :
    steppedOneNodeRecord.predecessors steppedOneNodeRecord.source = some none
    ∧ setStepResult.snd.predecessors 1
        = Option.map (fun c => some c) preSetState.next_node :=
  ⟨(c8_predecessor_ledger_invariant oneNodeGraph 0
      SPFACandidateOrder.SmallFirst unitCost noConnections
      initialOneNodeRecord steppedOneNodeRecord 1 rfl rfl).1,
    (c8_predecessor_ledger_invariant oneNodeGraph 0
      SPFACandidateOrder.SmallFirst unitCost noConnections
      initialOneNodeRecord steppedOneNodeRecord 1 rfl rfl).2
      threeCost twoNodeConnections preSetState setStepResult.fst
      setStepResult.snd rfl (Option.some_get (by rfl)).symm 1 (by decide)⟩

end Spfa
